import Mathlib

set_option linter.unusedSectionVars false

/-!
Formal model of `mrp7pred/feats/_correlation_graph.py`.

The Python module builds an undirected "correlation graph" from a square
correlation matrix (nodes = feature indices, edges = correlations at or
above a threshold) and then prunes it with two alternating rounds (R1:
remove nodes with a leaf child, R2: remove the node of maximal overall
weight) until no edge is left.

Python `Node` objects are heap objects with identity semantics: `==` on
`Node` is object identity (no `__eq__` is defined), and `dict` keys are
compared by that identity.  We therefore model the Python object heap as
a list of `NodeData`, a node's identity being its index (its `id`) in
that list; `self.nodes` is a list of such ids.  Python 3.7+ `dict`s are
insertion ordered, so a node's `edge` dict is an association list.

Edge weights (floats in Python) are modelled over an arbitrary linearly
ordered additive commutative monoid `W`; concrete instances use `ℤ`.
Raised exceptions are modelled with `Except String`.
-/

namespace CorrelationGraph

/-- One Python `Node` object: its `value` (the feature index, an `int`;
the Round-2 placeholder node has value `-1`) and its `edge` dict,
an insertion-ordered association list from neighbor id to weight. -/
structure NodeData (W : Type) where
  value : Int
  edge : List (Nat × W)
deriving DecidableEq, Repr

/-- Python `d.get(k)`: first binding of `k`, if any. -/
def dictGet {W : Type} : List (Nat × W) → Nat → Option W
  | [], _ => none
  | (k0, v0) :: rest, k => if k0 = k then some v0 else dictGet rest k

/-- Python `d[k] = v`: overwrite the binding in place if `k` is present,
else append it (insertion order). -/
def dictSet {W : Type} : List (Nat × W) → Nat → W → List (Nat × W)
  | [], k, v => [(k, v)]
  | (k0, v0) :: rest, k, v =>
    if k0 = k then (k0, v) :: rest else (k0, v0) :: dictSet rest k v

/-- Python `del d[k]` for a present key: drop the first binding of `k`. -/
def dictDel {W : Type} : List (Nat × W) → Nat → List (Nat × W)
  | [], _ => []
  | (k0, v0) :: rest, k => if k0 = k then rest else (k0, v0) :: dictDel rest k

/-- Out-of-heap default (never denotes a real Python object). -/
def dfltNode {W : Type} : NodeData W := ⟨-1, []⟩

/-- Dereference a node id in the heap. -/
def heapGet {W : Type} (heap : List (NodeData W)) (i : Nat) : NodeData W :=
  heap.getD i dfltNode

variable {W : Type} [LinearOrder W] [AddCommMonoid W]

/-- `Node.link(self, node, pcc)`: `self.edge[node] = pcc`.  Note the
source stores the edge on `self` (here `a`) ONLY; nothing is written to
`node` (here `b`). -/
def link (heap : List (NodeData W)) (a b : Nat) (w : W) : List (NodeData W) :=
  heap.set a { heapGet heap a with edge := dictSet (heapGet heap a).edge b w }

/-- `Node.unlink(self, node)` (`self` is `a`, `node` is `b`):

    if not self.edge.get(node): raise ValueError(...)
    del node.edge[self]
    del self.edge[node]

`self.edge.get(node)` is falsy when the key is absent (`None`) and also
when the stored weight is `0.0`, so both cases raise `ValueError`.
`del node.edge[self]` raises `KeyError` when the reverse entry is
missing.  Errors model the raised exception propagating to the caller
(no caller in the module catches them). -/
def unlink (heap : List (NodeData W)) (a b : Nat) :
    Except String (List (NodeData W)) :=
  match dictGet (heapGet heap a).edge b with
  | none => .error "ValueError: is not the neighbor"
  | some w =>
    if w = 0 then .error "ValueError: is not the neighbor"
    else
      match dictGet (heapGet heap b).edge a with
      | none => .error "KeyError"
      | some _ =>
        let heap1 := heap.set b
          { heapGet heap b with edge := dictDel (heapGet heap b).edge a }
        .ok (heap1.set a
          { heapGet heap1 a with edge := dictDel (heapGet heap1 a).edge b })

/-- `Node.has_leaf_child(self)`: some neighbor has exactly one edge. -/
def hasLeafChild (heap : List (NodeData W)) (nd : NodeData W) : Bool :=
  nd.edge.any fun p => (heapGet heap p.1).edge.length == 1

/-- `Node.get_overall_weight(self)` and the inline
`sum(node.edge.values())`: sum of the adjacency weights. -/
def getOverallWeight (nd : NodeData W) : W :=
  (nd.edge.map Prod.snd).sum

/-- The mutable state of a `CorrelationGraph` object: the object heap of
all created `Node`s, `self.nodes` (a list of node ids), `self.to_drop`
and `self.num_edges`. -/
structure Graph (W : Type) where
  heap : List (NodeData W)
  nodes : List Nat
  toDrop : List Int
  numEdges : Int
deriving DecidableEq, Repr

/-- Constructor state: the caller's correlation matrix together with the
graph under construction.  The matrix is threaded through every step so
that writes to it (there are none in the source) would be visible. -/
structure BuildState (W : Type) where
  matrix : List (List W)
  g : Graph W
deriving DecidableEq, Repr

/-- `corr_matrix.iloc[i, j]` (in range for every read the constructor
performs on a square matrix). -/
def entryAt (m : List (List W)) (i j : Nat) : W :=
  (m.getD i []).getD j 0

/-- Inner constructor loop, `for col in range(row + 1, n)`:

    corr = corr_matrix.iloc[row, col]
    if corr >= threshold:
        node_new = Node(col)
        node.link(node_new, corr)
        self.num_edges += 1
        if node_new not in self.nodes:
            self.nodes.append(node_new)

`node_new` is a FRESH object each time, so `node_new not in self.nodes`
(identity comparison) is checked on an id that no list can contain yet. -/
def buildCols (row rowId : Nat) (t : W) :
    List Nat → BuildState W → BuildState W
  | [], s => s
  | col :: rest, s =>
    let corr := entryAt s.matrix row col
    if corr ≥ t then
      let newId := s.g.heap.length
      let heap1 := s.g.heap ++ [⟨(col : Int), []⟩]
      let heap2 := link heap1 rowId newId corr
      let nodes1 :=
        if s.g.nodes.contains newId then s.g.nodes else s.g.nodes ++ [newId]
      buildCols row rowId t rest
        { s with g :=
          { s.g with heap := heap2, nodes := nodes1,
                     numEdges := s.g.numEdges + 1 } }
    else buildCols row rowId t rest s

/-- Outer constructor loop, `for row in range(n)`:

    node = Node(row)
    if node not in self.nodes:
        self.nodes.append(node)
    for col in range(row + 1, n): ...

Again `node` is a fresh object, so the membership test is on a new id. -/
def buildRows (t : W) (n : Nat) : List Nat → BuildState W → BuildState W
  | [], s => s
  | row :: rest, s =>
    let nodeId := s.g.heap.length
    let heap1 := s.g.heap ++ [⟨(row : Int), []⟩]
    let nodes1 :=
      if s.g.nodes.contains nodeId then s.g.nodes else s.g.nodes ++ [nodeId]
    let s1 := { s with g := { s.g with heap := heap1, nodes := nodes1 } }
    buildRows t n rest (buildCols row nodeId t (List.range' (row + 1) (n - (row + 1))) s1)

/-- `CorrelationGraph.__init__(corr_matrix, threshold)`: raise
`ValueError` unless `shape[0] == shape[1]` (the number of columns of a
rectangular DataFrame is the length of its first row), then run the two
nested loops starting from empty `nodes`, `to_drop` and `num_edges = 0`. -/
def buildE (m : List (List W)) (t : W) : Except String (BuildState W) :=
  if m.length ≠ (m.headD []).length then .error "Input dataframe is not (n, n)."
  else .ok (buildRows t m.length (List.range m.length) ⟨m, ⟨[], [], [], 0⟩⟩)

/-- One Python `for node in self.nodes` traversal of
`_remove_nodes_with_leaf_child` (R1).

CPython's list iterator reads `self.nodes[i]` for `i = 0, 1, ...` from
the LIVE list.  We carry that state as a zipper: `kept` holds the
elements at positions `< i` (already passed, still in the list) and
`rest` the elements at positions `≥ i`.  All ids in `self.nodes` are
distinct (each object is appended at most once), so
`self.nodes.remove(node)` erases exactly the current element, i.e. the
head of `rest`; the iterator index, already advanced past it, then
lands past the element that just slid into its place, so that element
moves to `kept` unexamined — the classic skip of mutate-while-iterate.
A node the body keeps simply moves to `kept`.  `visited` records the
`value` of every node the loop actually yields (observational
instrumentation; it influences nothing).

The leaf-child branch is

    self.to_drop.append(node.value)
    for neighbor in node.edge.keys():
        neighbor.unlink(node)
        self.num_edges -= 1
    self.nodes.remove(node)

`neighbor.unlink(node)` executes `del node.edge[self]`, deleting a key
from the very dict `node.edge` being iterated, so if the first `unlink`
does not itself raise, the next step of the neighbor loop raises
`RuntimeError: dictionary changed size during iteration` (CPython
raises it at the next step even when the iterator is then exhausted).
Either way the branch raises; the exception propagates out of `prune`
(nothing catches it), so no later state is observable. -/
def r1Loop (heap : List (NodeData W)) :
    List Nat → List Nat → List Int → Except String (List Nat × List Int)
  | kept, [], visited => .ok (kept, visited)
  | kept, id :: rest, visited =>
    let nd := heapGet heap id
    let visited1 := visited ++ [nd.value]
    if nd.edge.length = 0 then
      match rest with
      | [] => .ok (kept, visited1)
      | y :: rest2 => r1Loop heap (kept ++ [y]) rest2 visited1
    else if hasLeafChild heap nd then
      match nd.edge with
      | [] => .error "unreachable: hasLeafChild needs a neighbor"
      | (k1, _) :: _ =>
        match unlink heap k1 id with
        | .error e => .error e
        | .ok _ => .error "RuntimeError: dictionary changed size during iteration"
    else r1Loop heap (kept ++ [id]) rest visited1

/-- `CorrelationGraph._remove_nodes_with_leaf_child(self)` (R1), paired
with the list of node values its loop visited.  Only `self.nodes` can
change on a normal return (the other mutations live in the raising
branch). -/
def removeNodesWithLeafChild (g : Graph W) : Except String (Graph W × List Int) :=
  (r1Loop g.heap [] g.nodes []).map fun r => ({ g with nodes := r.1 }, r.2)

/-- One Python `for node in self.nodes` traversal of
`_remove_nodes_in_cycles` (R2), with the same live-list iterator zipper
as `r1Loop`.  `maxWeight` and `maxValue` carry `max_weight` and
`max_weight_node.value` (`max_weight_node` starts as the placeholder
`Node(-1)`, of which only `.value` is ever read). -/
def r2Loop (heap : List (NodeData W)) :
    List Nat → List Nat → W → Int → List Nat × W × Int
  | kept, [], maxWeight, maxValue => (kept, maxWeight, maxValue)
  | kept, id :: rest, maxWeight, maxValue =>
    let nd := heapGet heap id
    if nd.edge.length = 0 then
      match rest with
      | [] => (kept, maxWeight, maxValue)
      | y :: rest2 => r2Loop heap (kept ++ [y]) rest2 maxWeight maxValue
    else
      let sumWeight := getOverallWeight nd
      if getOverallWeight nd > maxWeight then
        r2Loop heap (kept ++ [id]) rest sumWeight nd.value
      else r2Loop heap (kept ++ [id]) rest maxWeight maxValue

/-- `CorrelationGraph._remove_nodes_in_cycles(self)` (R2): run the scan,
then `self.to_drop.append(max_weight_node.value)`.  Nothing else is
mutated: the selected node is neither unlinked nor removed from
`self.nodes`, and `self.num_edges` is untouched. -/
def removeNodesInCycles (g : Graph W) : Graph W :=
  let r := r2Loop g.heap [] g.nodes 0 (-1)
  { g with nodes := r.1, toDrop := g.toDrop ++ [r.2.2] }

/-- One iteration of the `prune` loop body: R1 then R2 (unconditionally). -/
def pruneStep (g : Graph W) : Except String (Graph W) :=
  (removeNodesWithLeafChild g).map fun r => removeNodesInCycles r.1

/-- `n` iterations of the `prune` loop body (ignoring the loop guard);
used to observe intermediate states of the `while` loop. -/
def loopIter : Nat → Graph W → Except String (Graph W)
  | 0, g => .ok g
  | n + 1, g => (pruneStep g).bind (loopIter n)

/-- `CorrelationGraph.prune(self)`:

    while self.num_edges != 0:
        self._remove_nodes_with_leaf_child()
        self._remove_nodes_in_cycles()

modelled with explicit fuel: `.ok (some g)` means the `while` loop
exited normally with final state `g`, `.ok none` means the loop was
still running when the fuel ran out, `.error e` models a raised
exception. -/
def pruneFuel : Nat → Graph W → Except String (Option (Graph W))
  | 0, g => if g.numEdges = 0 then .ok (some g) else .ok none
  | f + 1, g =>
    if g.numEdges = 0 then .ok (some g)
    else (pruneStep g).bind (pruneFuel f)

/-- `prune` at the level of the caller's state (matrix plus graph): the
source of `prune` references only `self.nodes`, `self.num_edges`,
`self.to_drop` and the node objects, never the matrix, which therefore
passes through unchanged. -/
def pruneFuelS (f : Nat) (s : BuildState W) :
    Except String (Option (BuildState W)) :=
  (pruneFuel f s.g).map fun r => r.map fun g => ⟨s.matrix, g⟩

/-- Values of the nodes currently in `self.nodes`, in list order. -/
def nodeValues (g : Graph W) : List Int :=
  g.nodes.map fun id => (heapGet g.heap id).value

end CorrelationGraph

namespace CorrelationGraph

variable {W : Type} [LinearOrder W] [AddCommMonoid W]

/-- Structural invariant of every reachable heap: each edge key points
into the heap, at a node whose own edge dict is empty.  It holds by
construction because `link` stores each edge on the row node only, and
its target is always a freshly created column node that never receives
edges of its own. -/
def HeapInv (heap : List (NodeData W)) : Prop :=
  ∀ i < heap.length, ∀ p ∈ (heapGet heap i).edge,
    p.1 < heap.length ∧ (heapGet heap p.1).edge = []

/-- `HeapInv` for the heap of a graph state. -/
def GraphInv (g : Graph W) : Prop := HeapInv g.heap

/-- `r` is not a key of any edge dict in the heap. -/
def NotKey (heap : List (NodeData W)) (r : Nat) : Prop :=
  ∀ i < heap.length, ∀ p ∈ (heapGet heap i).edge, p.1 ≠ r

/-- The number of unordered pairs `(i, j)` with `i < j` whose matrix
entry at `(i, j)` is at or above the threshold: enumerate every ordered
pair of indices below `n` once and filter. -/
def numHighPairs (m : List (List W)) (t : W) : Nat :=
  (((List.range m.length).flatMap fun i =>
      (List.range m.length).map fun j => (i, j)).filter
    fun p => decide (p.1 < p.2) && decide (entryAt m p.1 p.2 ≥ t)).length

/-- Elements at even (0-based) positions of a list. -/
def evenSlots {β : Type} : List β → List β
  | [] => []
  | [a] => [a]
  | a :: _ :: rest => a :: evenSlots rest

/-- Elements at odd (0-based) positions of a list. -/
def oddSlots {β : Type} : List β → List β
  | [] => []
  | [_] => []
  | _ :: b :: rest => b :: oddSlots rest

/-- Per-row count of qualifying columns, as the constructor's inner
loop sees them. -/
def rowHighCount (m : List (List W)) (t : W) (n r : Nat) : Nat :=
  ((List.range' (r + 1) (n - (r + 1))).filter
    fun c => decide (entryAt m r c ≥ t)).length

/-- 2-feature matrix with one above-threshold pair (weights are
correlations scaled by 100, threshold 90: entry 95 qualifies). -/
def mPair : List (List ℤ) := [[100, 95], [95, 100]]

/-- 3-feature matrix whose only above-threshold pair is (1, 2). -/
def mTri : List (List ℤ) := [[100, 10, 10], [10, 100, 95], [10, 95, 100]]

/-- 2-feature matrix with no above-threshold pair: two isolated nodes. -/
def mIso : List (List ℤ) := [[100, 10], [10, 100]]

/-- 3-feature matrix with no above-threshold pair. -/
def mIso3 : List (List ℤ) := [[100, 10, 10], [10, 100, 10], [10, 10, 100]]

end CorrelationGraph

namespace CorrelationGraph

variable {W : Type} [LinearOrder W] [AddCommMonoid W]

variable {heap : List (NodeData W)} {kept rest : List Nat} {visited : List Int} {id y : Nat}

lemma r1Loop_nil : r1Loop heap kept [] visited = .ok (kept, visited) := rfl

lemma r1Loop_last_empty (he : (heapGet heap id).edge.length = 0) :
    r1Loop heap kept [id] visited =
      .ok (kept, visited ++ [(heapGet heap id).value]) := by
  rw [r1Loop.eq_def]
  simp [he]

lemma r1Loop_skip (he : (heapGet heap id).edge.length = 0) {rest2 : List Nat} :
    r1Loop heap kept (id :: y :: rest2) visited =
      r1Loop heap (kept ++ [y]) rest2 (visited ++ [(heapGet heap id).value]) := by
  rw [r1Loop.eq_def]
  simp [he]

lemma r1Loop_keep (he : ¬ (heapGet heap id).edge.length = 0)
    (hl : hasLeafChild heap (heapGet heap id) = false) :
    r1Loop heap kept (id :: rest) visited =
      r1Loop heap (kept ++ [id]) rest (visited ++ [(heapGet heap id).value]) := by
  rw [r1Loop.eq_def]
  simp [he, hl]

/-- Under the heap invariant no node ever has a leaf child: every
neighbor's edge dict is empty, hence never of length 1. -/
lemma hasLeafChild_false (hInv : HeapInv heap) (id : Nat) :
    hasLeafChild heap (heapGet heap id) = false := by
  unfold hasLeafChild
  rw [List.any_eq_false]
  intro p hp
  by_cases hid : id < heap.length
  · obtain ⟨-, h2⟩ := hInv id hid p hp
    simp [h2]
  · have hd : heapGet heap id = dfltNode := by
      unfold heapGet
      rw [List.getD_eq_getElem?_getD, List.getElem?_eq_none (by omega)]
      rfl
    rw [hd] at hp
    simp [dfltNode] at hp

/-- Under the heap invariant the Round-1 loop never reaches its raising
branch: it returns normally with some node list and visit list. -/
lemma r1Loop_ok (hInv : HeapInv heap) :
    ∀ (n : Nat) (rest : List Nat), rest.length ≤ n →
      ∀ (kept : List Nat) (visited : List Int),
        ∃ kept2 vis2, r1Loop heap kept rest visited = .ok (kept2, vis2) := by
  intro n
  induction n with
  | zero =>
    intro rest h kept visited
    match rest with
    | [] => exact ⟨kept, visited, r1Loop_nil⟩
    | _ :: _ => simp at h
  | succ n ih =>
    intro rest h kept visited
    match rest with
    | [] => exact ⟨kept, visited, r1Loop_nil⟩
    | id :: rest1 =>
      by_cases he : (heapGet heap id).edge.length = 0
      · match rest1 with
        | [] => exact ⟨kept, _, r1Loop_last_empty he⟩
        | y :: rest2 =>
          rw [r1Loop_skip he]
          exact ih rest2 (by simp at h; omega) (kept ++ [y]) _
      · rw [r1Loop_keep he (hasLeafChild_false hInv id)]
        exact ih rest1 (by simp at h; omega) (kept ++ [id]) _

/-- Under the graph invariant Round 1 returns normally, and on a normal
return it can only have changed `self.nodes`. -/
lemma removeNodesWithLeafChild_ok {g : Graph W} (hInv : GraphInv g) :
    ∃ nodes2 vis, removeNodesWithLeafChild g = .ok ({ g with nodes := nodes2 }, vis) := by
  obtain ⟨kept2, vis2, h⟩ := r1Loop_ok hInv g.nodes.length g.nodes le_rfl [] []
  exact ⟨kept2, vis2, by rw [removeNodesWithLeafChild, h]; rfl⟩

/-- Round 2 only rewrites `self.nodes` and appends one value to
`self.to_drop`; the heap and `self.num_edges` are untouched. -/
lemma removeNodesInCycles_shape (g : Graph W) :
    ∃ nodes2 v, removeNodesInCycles g =
      { g with nodes := nodes2, toDrop := g.toDrop ++ [v] } :=
  ⟨_, _, rfl⟩

/-- Under the graph invariant one iteration of the prune loop body
returns normally, preserves the heap and `num_edges` (hence the
invariant), and appends exactly one value to `to_drop`. -/
lemma pruneStep_ok {g : Graph W} (hInv : GraphInv g) :
    ∃ g', pruneStep g = .ok g' ∧ g'.heap = g.heap ∧
      g'.numEdges = g.numEdges ∧ (∃ v, g'.toDrop = g.toDrop ++ [v]) ∧
      GraphInv g' := by
  obtain ⟨nodes2, vis, h1⟩ := removeNodesWithLeafChild_ok hInv
  refine ⟨removeNodesInCycles { g with nodes := nodes2 }, ?_, rfl, rfl, ⟨_, rfl⟩, hInv⟩
  rw [pruneStep, h1]
  rfl

/-- Under the graph invariant, `n` iterations of the prune loop body
return normally, preserve the heap and `num_edges` (hence the
invariant), and only extend `to_drop`. -/
lemma loopIter_ok {g : Graph W} (hInv : GraphInv g) :
    ∀ n : Nat, ∃ g', loopIter n g = .ok g' ∧ g'.heap = g.heap ∧
      g'.numEdges = g.numEdges ∧ GraphInv g' := by
  intro n
  induction n generalizing g with
  | zero => exact ⟨g, rfl, rfl, rfl, hInv⟩
  | succ n ih =>
    obtain ⟨g1, h1, hh1, he1, -, hi1⟩ := pruneStep_ok hInv
    obtain ⟨g2, h2, hh2, he2, hi2⟩ := ih hi1
    refine ⟨g2, ?_, hh2.trans hh1, he2.trans he1, hi2⟩
    rw [loopIter, h1]
    exact h2

/-- Unfold the prune loop from the right: `n + 1` iterations are `n`
iterations followed by one. -/
lemma loopIter_succ_right (n : Nat) (g : Graph W) :
    loopIter (n + 1) g = (loopIter n g).bind pruneStep := by
  induction n generalizing g with
  | zero =>
    cases h : pruneStep g with
    | error e => simp [loopIter, h, Except.bind]
    | ok g1 => simp [loopIter, h, Except.bind]
  | succ n ih =>
    cases h : pruneStep g with
    | error e => simp [loopIter, h, Except.bind]
    | ok g1 =>
      show (pruneStep g).bind (loopIter (n + 1)) = ((pruneStep g).bind (loopIter n)).bind pruneStep
      rw [h]
      show loopIter (n + 1) g1 = (loopIter n g1).bind pruneStep
      exact ih g1

/-- Under the graph invariant, a graph whose `num_edges` is nonzero
makes `prune`'s `while` loop run forever: whatever the fuel, the loop is
still running (`num_edges` never changes) when it runs out. -/
lemma pruneFuel_none {g : Graph W} (hInv : GraphInv g) (hne : g.numEdges ≠ 0) :
    ∀ f : Nat, pruneFuel f g = .ok none := by
  intro f
  induction f generalizing g with
  | zero => rw [pruneFuel, if_neg hne]
  | succ f ih =>
    obtain ⟨g1, h1, -, he1, -, hi1⟩ := pruneStep_ok hInv
    rw [pruneFuel, if_neg hne, h1]
    exact ih hi1 (by rw [he1]; exact hne)

lemma heapGet_lt {l : List (NodeData W)} {i : Nat} (h : i < l.length) :
    heapGet l i = l.get ⟨i, h⟩ := by
  unfold heapGet
  rw [List.getD_eq_getElem?_getD, List.getElem?_eq_getElem h]
  rfl

lemma heapGet_ge {l : List (NodeData W)} {i : Nat} (h : l.length ≤ i) :
    heapGet l i = dfltNode := by
  unfold heapGet
  rw [List.getD_eq_getElem?_getD, List.getElem?_eq_none h]
  rfl

lemma heapGet_append_lt {l l2 : List (NodeData W)} {i : Nat} (h : i < l.length) :
    heapGet (l ++ l2) i = heapGet l i := by
  unfold heapGet
  rw [List.getD_eq_getElem?_getD, List.getD_eq_getElem?_getD,
    List.getElem?_append_left h]

lemma heapGet_append_self {l : List (NodeData W)} {x : NodeData W} :
    heapGet (l ++ [x]) l.length = x := by
  unfold heapGet
  rw [List.getD_eq_getElem?_getD, List.getElem?_concat_length]
  rfl

lemma heapGet_set_ne {l : List (NodeData W)} {i j : Nat} (h : j ≠ i)
    {x : NodeData W} : heapGet (l.set j x) i = heapGet l i := by
  unfold heapGet
  rw [List.getD_eq_getElem?_getD, List.getD_eq_getElem?_getD,
    List.getElem?_set_ne h]

lemma heapGet_set_self {l : List (NodeData W)} {j : Nat} (h : j < l.length)
    {x : NodeData W} : heapGet (l.set j x) j = x := by
  unfold heapGet
  rw [List.getD_eq_getElem?_getD, List.getElem?_set_self h]
  rfl

lemma dictSet_fresh {d : List (Nat × W)} {k : Nat} {v : W}
    (h : ∀ p ∈ d, p.1 ≠ k) : dictSet d k v = d ++ [(k, v)] := by
  induction d with
  | nil => rfl
  | cons p rest ih =>
    rw [dictSet]
    rw [if_neg (h p (by simp))]
    rw [ih fun q hq => h q (by simp [hq])]
    rfl

/-- Appending a fresh edge-free node preserves the heap invariant, and
the fresh node's id is not a key anywhere. -/
lemma heapInv_append {heap : List (NodeData W)} (hInv : HeapInv heap)
    (c : Int) :
    HeapInv (heap ++ [⟨c, []⟩]) ∧ NotKey (heap ++ [⟨c, []⟩]) heap.length := by
  constructor
  · intro i hi p hp
    simp only [List.length_append, List.length_cons, List.length_nil] at hi
    by_cases hlt : i < heap.length
    · rw [heapGet_append_lt hlt] at hp
      obtain ⟨h1, h2⟩ := hInv i hlt p hp
      refine ⟨by simp; omega, ?_⟩
      rw [heapGet_append_lt h1, h2]
    · have hieq : i = heap.length := by omega
      rw [hieq, heapGet_append_self] at hp
      simp at hp
  · intro i hi p hp
    simp only [List.length_append, List.length_cons, List.length_nil] at hi
    by_cases hlt : i < heap.length
    · rw [heapGet_append_lt hlt] at hp
      obtain ⟨h1, -⟩ := hInv i hlt p hp
      omega
    · have hieq : i = heap.length := by omega
      rw [hieq, heapGet_append_self] at hp
      simp at hp

/-- The heap transformation of one qualifying inner-loop step (create
`node_new`, then `node.link(node_new, corr)`) preserves the invariant
and keeps the row id key-free. -/
lemma heapInv_link_step {heap : List (NodeData W)} {rowId : Nat} {c : Int}
    {w : W} (hInv : HeapInv heap) (hnk : NotKey heap rowId)
    (hr : rowId < heap.length) :
    HeapInv (link (heap ++ [⟨c, []⟩]) rowId heap.length w) ∧
      NotKey (link (heap ++ [⟨c, []⟩]) rowId heap.length w) rowId ∧
      (link (heap ++ [⟨c, []⟩]) rowId heap.length w).length = heap.length + 1 := by
  set heap1 := heap ++ [⟨c, []⟩] with hheap1
  have hr1 : rowId < heap1.length := by simp [hheap1]; omega
  have hget1 : heapGet heap1 rowId = heapGet heap rowId := heapGet_append_lt hr
  have hfresh : ∀ p ∈ (heapGet heap rowId).edge, p.1 ≠ heap.length := by
    intro p hp
    obtain ⟨h1, -⟩ := hInv rowId hr p hp
    omega
  have hset : dictSet (heapGet heap1 rowId).edge heap.length w =
      (heapGet heap rowId).edge ++ [(heap.length, w)] := by
    rw [hget1]
    exact dictSet_fresh hfresh
  have hlen : (link heap1 rowId heap.length w).length = heap.length + 1 := by
    simp [link, hheap1]
  -- descriptions of lookups in the updated heap
  have hrow : heapGet (link heap1 rowId heap.length w) rowId =
      { heapGet heap rowId with
        edge := (heapGet heap rowId).edge ++ [(heap.length, w)] } := by
    rw [link, heapGet_set_self hr1, hset, hget1]
  have hother : ∀ i, i ≠ rowId →
      heapGet (link heap1 rowId heap.length w) i = heapGet heap1 i := by
    intro i hi
    rw [link, heapGet_set_ne (fun hc => hi hc.symm)]
  have hnew : heapGet (link heap1 rowId heap.length w) heap.length =
      (⟨c, []⟩ : NodeData W) := by
    rw [hother heap.length (by omega), hheap1, heapGet_append_self]
  refine ⟨?_, ?_, hlen⟩
  · intro i hi p hp
    rw [hlen] at hi
    by_cases hirow : i = rowId
    · subst hirow
      rw [hrow] at hp
      simp only [List.mem_append, List.mem_singleton] at hp
      rcases hp with hp | hp
      · obtain ⟨h1, h2⟩ := hInv i hr p hp
        have hne : p.1 ≠ i := hnk i hr p hp
        refine ⟨by omega, ?_⟩
        rw [hother p.1 hne, hheap1, heapGet_append_lt h1, h2]
      · subst hp
        refine ⟨by omega, ?_⟩
        rw [hnew]
    · rw [hother i hirow] at hp
      by_cases hlt : i < heap.length
      · rw [hheap1, heapGet_append_lt hlt] at hp
        obtain ⟨h1, h2⟩ := hInv i hlt p hp
        have hne : p.1 ≠ rowId := hnk i hlt p hp
        refine ⟨by omega, ?_⟩
        rw [hother p.1 hne, hheap1, heapGet_append_lt h1, h2]
      · have hieq : i = heap.length := by omega
        rw [hieq, hheap1, heapGet_append_self] at hp
        simp at hp
  · intro i hi p hp
    rw [hlen] at hi
    by_cases hirow : i = rowId
    · subst hirow
      rw [hrow] at hp
      simp only [List.mem_append, List.mem_singleton] at hp
      rcases hp with hp | hp
      · exact hnk i hr p hp
      · subst hp
        simp only []
        omega
    · rw [hother i hirow] at hp
      by_cases hlt : i < heap.length
      · rw [hheap1, heapGet_append_lt hlt] at hp
        exact hnk i hlt p hp
      · have hieq : i = heap.length := by omega
        rw [hieq, hheap1, heapGet_append_self] at hp
        simp at hp

lemma buildCols_matrix {row rowId : Nat} {t : W} :
    ∀ (cols : List Nat) (s : BuildState W),
      (buildCols row rowId t cols s).matrix = s.matrix := by
  intro cols
  induction cols with
  | nil => intro s; rfl
  | cons col rest ih =>
    intro s
    rw [buildCols.eq_def]
    by_cases hc : entryAt s.matrix row col ≥ t
    · simp only [if_pos hc]
      rw [ih]
    · simp only [if_neg hc]
      rw [ih]

lemma buildCols_inv {row rowId : Nat} {t : W} :
    ∀ (cols : List Nat) (s : BuildState W), HeapInv s.g.heap →
      NotKey s.g.heap rowId → rowId < s.g.heap.length →
      HeapInv (buildCols row rowId t cols s).g.heap ∧
        NotKey (buildCols row rowId t cols s).g.heap rowId ∧
        rowId < (buildCols row rowId t cols s).g.heap.length := by
  intro cols
  induction cols with
  | nil => intro s h1 h2 h3; exact ⟨h1, h2, h3⟩
  | cons col rest ih =>
    intro s h1 h2 h3
    rw [buildCols.eq_def]
    by_cases hc : entryAt s.matrix row col ≥ t
    · simp only [if_pos hc]
      obtain ⟨k1, k2, k3⟩ := heapInv_link_step (c := (col : Int)) (w := entryAt s.matrix row col) h1 h2 h3
      exact ih _ k1 k2 (by rw [k3]; omega)
    · simp only [if_neg hc]
      exact ih s h1 h2 h3

lemma buildRows_matrix {t : W} {n : Nat} :
    ∀ (rows : List Nat) (s : BuildState W),
      (buildRows t n rows s).matrix = s.matrix := by
  intro rows
  induction rows with
  | nil => intro s; rfl
  | cons row rest ih =>
    intro s
    rw [buildRows.eq_def]
    simp only []
    rw [ih, buildCols_matrix]

lemma buildRows_inv {t : W} {n : Nat} :
    ∀ (rows : List Nat) (s : BuildState W), HeapInv s.g.heap →
      HeapInv (buildRows t n rows s).g.heap := by
  intro rows
  induction rows with
  | nil => intro s h1; exact h1
  | cons row rest ih =>
    intro s h1
    rw [buildRows.eq_def]
    refine ih _ ((buildCols_inv _ _ ?_ ?_ ?_).1)
    · exact (heapInv_append h1 (row : Int)).1
    · exact (heapInv_append h1 (row : Int)).2
    · show s.g.heap.length < (s.g.heap ++ [(⟨(row : Int), []⟩ : NodeData W)]).length
      simp

/-- The constructor establishes the heap invariant. -/
lemma buildE_inv {m : List (List W)} {t : W} {bs : BuildState W}
    (h : buildE m t = .ok bs) : GraphInv bs.g := by
  rw [buildE] at h
  split at h
  · exact absurd h (by simp)
  · have := Except.ok.inj h
    subst this
    exact buildRows_inv (List.range m.length) ⟨m, ⟨[], [], [], 0⟩⟩
      (by intro i hi p hp; simp at hi)

/-- The constructor never writes to the caller's matrix. -/
lemma buildE_matrix {m : List (List W)} {t : W} {bs : BuildState W}
    (h : buildE m t = .ok bs) : bs.matrix = m := by
  rw [buildE] at h
  split at h
  · exact absurd h (by simp)
  · have := Except.ok.inj h
    subst this
    rw [buildRows_matrix]

/-- C1: `prune()` never terminates on any graph built from a matrix
with at least one above-threshold pair: `num_edges` never changes, so
the `while num_edges != 0` loop runs forever (here: for every fuel the
loop is still running).  The claim that `prune()` always terminates
with `edge_count == 0` is false for the code; its own class docstring
("R1 and R2 will keep running until no edge exists") and its
`__main__` demo expect termination. -/
theorem prune_never_terminates {m : List (List W)} {t : W} {bs : BuildState W}
    (h : buildE m t = .ok bs) (hne : bs.g.numEdges ≠ 0) (f : Nat) :
    pruneFuel f bs.g = .ok none :=
  pruneFuel_none (buildE_inv h) hne f

/-- Witness for `prune_never_terminates` at the concrete matrix `mPair`. -/
theorem prune_never_terminates_witness :
    ∃ bs, buildE mPair (90 : ℤ) = .ok bs ∧ bs.g.numEdges ≠ 0 ∧
      pruneFuel 5 bs.g = .ok none :=
  ⟨_, rfl, by decide, prune_never_terminates (m := mPair) (t := 90) rfl (by decide) 5⟩

/-- C8: at every iteration of the prune loop, Round 1 returns without
changing `num_edges` (it can never make progress, since no node ever
has a leaf child), and the loop then feeds its result straight into
Round 2; hence Round 2 only ever runs after a Round 1 that made no
progress in `num_edges`. -/
theorem r2_only_after_stalled_r1 {m : List (List W)} {t : W}
    {bs : BuildState W} {n : Nat} {g : Graph W}
    (hb : buildE m t = .ok bs) (hl : loopIter n bs.g = .ok g) :
    ∃ g1 vis, removeNodesWithLeafChild g = .ok (g1, vis) ∧
      g1.numEdges = g.numEdges ∧
      loopIter (n + 1) bs.g = .ok (removeNodesInCycles g1) := by
  have hInv := buildE_inv hb
  obtain ⟨g', h', -, -, hi⟩ := loopIter_ok hInv n
  have hg : g' = g := by
    rw [hl] at h'
    exact (Except.ok.inj h').symm
  subst hg
  obtain ⟨nodes2, vis, h1⟩ := removeNodesWithLeafChild_ok hi
  refine ⟨{ g' with nodes := nodes2 }, vis, h1, rfl, ?_⟩
  rw [loopIter_succ_right, hl]
  show pruneStep g' = _
  rw [pruneStep, h1]
  rfl

/-- Witness for `r2_only_after_stalled_r1` at `mPair`, iteration 0. -/
theorem r2_only_after_stalled_r1_witness :
    ∃ bs, buildE mPair (90 : ℤ) = .ok bs ∧
      ∃ g1 vis, removeNodesWithLeafChild bs.g = .ok (g1, vis) ∧
        g1.numEdges = bs.g.numEdges ∧
        loopIter 1 bs.g = .ok (removeNodesInCycles g1) :=
  ⟨_, rfl, r2_only_after_stalled_r1 (m := mPair) (t := 90) rfl rfl⟩

/-- C10: neither construction nor `prune` writes to the caller's
matrix: the state after construction holds the input matrix unchanged,
and so does the state after any `prune` call that completes. -/
theorem matrix_untouched {m : List (List W)} {t : W} {bs : BuildState W}
    (h : buildE m t = .ok bs) :
    bs.matrix = m ∧ ∀ f r, pruneFuelS f bs = .ok (some r) → r.matrix = m := by
  refine ⟨buildE_matrix h, ?_⟩
  intro f r hr
  rw [pruneFuelS] at hr
  cases hp : pruneFuel f bs.g with
  | error e =>
    rw [hp] at hr
    exact absurd hr (by simp [Except.map])
  | ok o =>
    rw [hp] at hr
    cases o with
    | none => exact absurd hr (by simp [Except.map])
    | some gg =>
      simp only [Except.map, Option.map] at hr
      have := Except.ok.inj hr
      have hr2 : r = ⟨bs.matrix, gg⟩ := by
        cases this
        rfl
      have hm := buildE_matrix h
      rw [hr2]
      exact hm

/-- Witness for `matrix_untouched` at `mIso` (whose prune completes). -/
theorem matrix_untouched_witness :
    ∃ bs r, buildE mIso (90 : ℤ) = .ok bs ∧ pruneFuelS 1 bs = .ok (some r) ∧
      bs.matrix = mIso ∧ r.matrix = mIso := by
  refine ⟨_, _, rfl, rfl, ?_, ?_⟩
  · exact (matrix_untouched (m := mIso) (t := 90) rfl).1
  · exact (matrix_untouched (m := mIso) (t := 90) rfl).2 1 _ rfl

/-- C4: building from `mPair` (entry 95 at or above threshold 90)
yields a node set whose values are `[0, 1, 1]`: feature index 1 appears
twice, because the constructor creates a fresh `Node(col)` per
qualifying pair and the `not in self.nodes` guard compares by object
identity, so it never deduplicates. -/
theorem build_duplicates_node_value :
    (buildE mPair 90).map (fun bs => nodeValues bs.g) = .ok [0, 1, 1] := rfl

/-- C3: after construction from `mPair`, node 0 holds the edge to node
1 with weight 95, but node 1's edge dict is empty: `link` records the
edge on the calling node only, so mutual adjacency consistency fails
already at construction. -/
theorem link_is_one_directional_eval :
    (buildE mPair 90).map
      (fun bs => (dictGet (heapGet bs.g.heap 0).edge 1,
                  (heapGet bs.g.heap 1).edge)) = .ok (some 95, []) := rfl

/-- C2: Round 2 on the graph built from `mPair` appends value 0 to
`to_drop` but removes nothing: the selected node 0 keeps its edge,
`num_edges` stays 1, and the node set still holds values 0 and 1. -/
theorem r2_removes_nothing_eval :
    (buildE mPair 90).map (fun bs =>
      ((removeNodesInCycles bs.g).toDrop,
       (removeNodesInCycles bs.g).numEdges,
       nodeValues (removeNodesInCycles bs.g),
       (heapGet (removeNodesInCycles bs.g).heap 0).edge)) =
      .ok ([0], 1, [0, 1], [(1, 95)]) := rfl

/-- C6: two iterations of the prune loop body on the graph built from
`mTri` put the same value 1 twice into `to_drop` while `num_edges` is
still 1 (and stays 1 forever, so `prune` never completes). -/
theorem toDrop_duplicates_eval :
    (buildE mTri 90).map (fun bs =>
      (loopIter 2 bs.g).map (fun g => (g.toDrop, g.numEdges))) =
      .ok (.ok ([1, 1], 1)) := rfl

/-- C7 counterexample: on the edge-free graph built from `mIso`, node
value 1 is in the node set when the Round-1 pass begins and is still in
it afterwards (so it was never removed from the live graph), yet the
pass never visits it: the removal of node 0 changed which nodes were
visited, contradicting the claimed snapshot semantics. -/
theorem r1_snapshot_counterexample :
    ∃ bs g1 vis, buildE mIso 90 = .ok bs ∧
      removeNodesWithLeafChild bs.g = .ok (g1, vis) ∧
      (1 : Int) ∈ nodeValues bs.g ∧ (1 : Int) ∈ nodeValues g1 ∧
      (1 : Int) ∉ vis :=
  ⟨_, _, _, rfl, rfl, by decide, by decide, by decide⟩

end CorrelationGraph

namespace CorrelationGraph

variable {W : Type} [LinearOrder W] [AddCommMonoid W]

lemma buildCols_edges {row rowId : Nat} {t : W} :
    ∀ (cols : List Nat) (s : BuildState W),
      (buildCols row rowId t cols s).g.numEdges =
        s.g.numEdges +
          ((cols.filter fun c => decide (entryAt s.matrix row c ≥ t)).length : Int) := by
  intro cols
  induction cols with
  | nil =>
    intro s
    rw [buildCols.eq_def]
    simp
  | cons col rest ih =>
    intro s
    rw [buildCols.eq_def]
    by_cases hc : entryAt s.matrix row col ≥ t
    · simp only [if_pos hc]
      rw [ih, List.filter_cons_of_pos (by simp [hc])]
      simp only [List.length_cons]
      push_cast
      ring
    · simp only [if_neg hc]
      rw [ih, List.filter_cons_of_neg (by simp [hc])]

lemma buildRows_edges {t : W} {n : Nat} :
    ∀ (rows : List Nat) (s : BuildState W),
      (buildRows t n rows s).g.numEdges =
        s.g.numEdges + ((rows.map fun r => rowHighCount s.matrix t n r).sum : Int) := by
  intro rows
  induction rows with
  | nil =>
    intro s
    rw [buildRows.eq_def]
    simp
  | cons row rest ih =>
    intro s
    rw [buildRows.eq_def]
    rw [ih, buildCols_edges, buildCols_matrix]
    simp only [List.map_cons, List.sum_cons, rowHighCount]
    push_cast
    ring

lemma flatMapPairs_filter_length {p : Nat × Nat → Bool} {f : Nat → List Nat} :
    ∀ l : List Nat,
      ((l.flatMap fun i => (f i).map fun j => (i, j)).filter p).length =
        (l.map fun i => (((f i).map fun j => (i, j)).filter p).length).sum := by
  intro l
  induction l with
  | nil => rfl
  | cons a l ih =>
    simp only [List.flatMap_cons, List.filter_append, List.length_append, ih,
      List.map_cons, List.sum_cons]

lemma countP_range_split {n i : Nat} (hi : i < n) (q : Nat → Bool) :
    ((List.range n).filter fun j => decide (i < j) && q j).length =
      ((List.range' (i + 1) (n - (i + 1))).filter q).length := by
  rw [← List.countP_eq_length_filter, ← List.countP_eq_length_filter]
  have hn : n = (i + 1) + (n - (i + 1)) := by omega
  rw [hn, List.range_add, List.countP_append]
  have h0 : (List.range (i + 1)).countP (fun j => decide (i < j) && q j) = 0 := by
    rw [List.countP_eq_zero]
    intro a ha
    rw [List.mem_range] at ha
    simp [Nat.not_lt.mpr (by omega : a ≤ i)]
  rw [h0, Nat.zero_add, List.countP_map, List.range'_eq_map_range, List.countP_map]
  have he : i + 1 + (n - (i + 1)) - (i + 1) = n - (i + 1) := by omega
  rw [he]
  apply List.countP_congr
  intro a ha
  simp only [Function.comp_apply]
  constructor
  · intro h
    exact (Bool.and_eq_true _ _ |>.mp h).2
  · intro h
    rw [Bool.and_eq_true]
    exact ⟨by simp; omega, h⟩

/-- The pair count decomposes into the per-row counts the constructor
accumulates. -/
lemma numHighPairs_eq (m : List (List W)) (t : W) :
    numHighPairs m t =
      ((List.range m.length).map fun r => rowHighCount m t m.length r).sum := by
  unfold numHighPairs
  rw [flatMapPairs_filter_length]
  apply congrArg List.sum
  apply List.map_congr_left
  intro i hi
  rw [List.mem_range] at hi
  rw [List.filter_map, List.length_map]
  have hcomp : ((fun p : Nat × Nat => decide (p.1 < p.2) && decide (entryAt m p.1 p.2 ≥ t)) ∘ fun j => (i, j))
      = fun j => decide (i < j) && decide (entryAt m i j ≥ t) := rfl
  rw [hcomp]
  exact countP_range_split hi _

/-- C5: the `num_edges` of a freshly built graph equals the number of
unordered pairs `(i, j)`, `i < j`, whose matrix entry at `(i, j)` is at
or above the threshold. -/
theorem numEdges_counts_high_pairs {m : List (List W)} {t : W}
    {bs : BuildState W} (h : buildE m t = .ok bs) :
    bs.g.numEdges = (numHighPairs m t : Int) := by
  rw [buildE] at h
  split at h
  · exact absurd h (by simp)
  · have := Except.ok.inj h
    subst this
    rw [buildRows_edges, numHighPairs_eq]
    show (0 : Int) + _ = _
    rw [Int.zero_add]

/-- Witness for `numEdges_counts_high_pairs` at `mPair`: one pair at or
above threshold, `num_edges = 1`. -/
theorem numEdges_counts_high_pairs_witness :
    ∃ bs, buildE mPair (90 : ℤ) = .ok bs ∧ numHighPairs mPair (90 : ℤ) = 1 ∧
      bs.g.numEdges = (numHighPairs mPair (90 : ℤ) : Int) :=
  ⟨_, rfl, by decide, numEdges_counts_high_pairs (m := mPair) (t := 90) rfl⟩

lemma r1Loop_all_empty {heap : List (NodeData W)} :
    ∀ (n : Nat) (rest : List Nat), rest.length ≤ n →
      (∀ id ∈ rest, (heapGet heap id).edge = []) →
      ∀ (kept : List Nat) (visited : List Int),
      r1Loop heap kept rest visited =
        .ok (kept ++ oddSlots rest,
             visited ++ (evenSlots rest).map fun id => (heapGet heap id).value) := by
  intro n
  induction n with
  | zero =>
    intro rest hlen hall kept visited
    match rest with
    | [] => simp [r1Loop_nil, oddSlots, evenSlots]
    | _ :: _ => simp at hlen
  | succ n ih =>
    intro rest hlen hall kept visited
    match rest with
    | [] => simp [r1Loop_nil, oddSlots, evenSlots]
    | [id] =>
      have he : (heapGet heap id).edge.length = 0 := by
        rw [hall id (by simp)]
        rfl
      rw [r1Loop_last_empty he]
      simp [oddSlots, evenSlots]
    | id :: y :: rest2 =>
      have he : (heapGet heap id).edge.length = 0 := by
        rw [hall id (by simp)]
        rfl
      rw [r1Loop_skip he]
      rw [ih rest2 (by simp at hlen; omega) (fun i hi => hall i (by simp [hi]))]
      simp [oddSlots, evenSlots, List.append_assoc]

/-- C7 amended: Round 1 iterates the live node list, not a snapshot.
When it removes the current node, the element that slides into its
place is passed over unexamined, so removals do change which nodes are
visited: on a graph whose nodes all have empty adjacency, the pass
visits exactly the even-position nodes (removing each) and retains
exactly the odd-position nodes. -/
theorem r1_live_iteration_skips {g : Graph W}
    (h : ∀ id ∈ g.nodes, (heapGet g.heap id).edge = []) :
    removeNodesWithLeafChild g =
      .ok ({ g with nodes := oddSlots g.nodes },
           (evenSlots g.nodes).map fun id => (heapGet g.heap id).value) := by
  rw [removeNodesWithLeafChild,
    r1Loop_all_empty g.nodes.length g.nodes le_rfl h [] []]
  simp [Except.map]

/-- Witness for `r1_live_iteration_skips` on the edge-free 3-node build
from `mIso3`: nodes `[0, 1, 2]`, visited values `[0, 2]`, retained `[1]`. -/
theorem r1_live_iteration_skips_witness :
    ∃ bs, buildE mIso3 (90 : ℤ) = .ok bs ∧
      (∀ id ∈ bs.g.nodes, (heapGet bs.g.heap id).edge = []) ∧
      removeNodesWithLeafChild bs.g =
        .ok ({ bs.g with nodes := oddSlots bs.g.nodes },
             (evenSlots bs.g.nodes).map fun id => (heapGet bs.g.heap id).value) :=
  ⟨_, rfl, by decide, r1_live_iteration_skips (by decide)⟩

lemma dictGet_eq_none {d : List (Nat × W)} {k : Nat}
    (h : ∀ p ∈ d, p.1 ≠ k) : dictGet d k = none := by
  induction d with
  | nil => rfl
  | cons p rest ih =>
    rw [dictGet]
    rw [if_neg (h p (by simp))]
    exact ih fun q hq => h q (by simp [hq])

lemma dictGet_dictDel_self {d : List (Nat × W)} {k : Nat}
    (hnd : (d.map Prod.fst).Nodup) : dictGet (dictDel d k) k = none := by
  induction d with
  | nil => rfl
  | cons p rest ih =>
    rw [dictDel]
    by_cases hk : p.1 = k
    · rw [if_pos hk]
      apply dictGet_eq_none
      intro q hq
      simp only [List.map_cons, List.nodup_cons] at hnd
      intro hqk
      exact hnd.1 (by rw [← hk, ← hqk] at *; exact List.mem_map_of_mem Prod.fst hq)
    · rw [if_neg hk, dictGet, if_neg hk]
      simp only [List.map_cons, List.nodup_cons] at hnd
      exact ih hnd.2

/-- C9 amended: `unlink(self, node)` raises exactly when `node` is not
a key of `self.edge` OR the stored weight is 0 (a falsy float); when
`node` is a neighbor with nonzero weight it deletes the reverse entry
(raising `KeyError` if that entry is absent) and then the forward
entry, so a mutual edge of nonzero weight is removed from both
endpoints. -/
theorem unlink_characterization {heap : List (NodeData W)} {a b : Nat}
    (hab : a ≠ b) (ha : a < heap.length) (hb : b < heap.length)
    (hka : ((heapGet heap a).edge.map Prod.fst).Nodup)
    (hkb : ((heapGet heap b).edge.map Prod.fst).Nodup) :
    (dictGet (heapGet heap a).edge b = none →
      ∃ e, unlink heap a b = .error e) ∧
    (dictGet (heapGet heap a).edge b = some 0 →
      ∃ e, unlink heap a b = .error e) ∧
    (∀ w, dictGet (heapGet heap a).edge b = some w → w ≠ 0 →
      dictGet (heapGet heap b).edge a = none →
      ∃ e, unlink heap a b = .error e) ∧
    (∀ w w', dictGet (heapGet heap a).edge b = some w → w ≠ 0 →
      dictGet (heapGet heap b).edge a = some w' →
      ∃ heap2, unlink heap a b = .ok heap2 ∧
        dictGet (heapGet heap2 a).edge b = none ∧
        dictGet (heapGet heap2 b).edge a = none) := by
  refine ⟨?_, ?_, ?_, ?_⟩
  · intro h
    exact ⟨_, by rw [unlink, h]⟩
  · intro h
    refine ⟨"ValueError: is not the neighbor", ?_⟩
    simp [unlink, h]
  · intro w hw hw0 hrev
    refine ⟨"KeyError", ?_⟩
    simp only [unlink, hw, hrev]
    rw [if_neg hw0]
  · intro w w' hw hw0 hrev
    have hstep : unlink heap a b = .ok
        ((heap.set b { heapGet heap b with edge := dictDel (heapGet heap b).edge a }).set a
          { heapGet (heap.set b { heapGet heap b with edge := dictDel (heapGet heap b).edge a }) a with
            edge := dictDel (heapGet (heap.set b
              { heapGet heap b with edge := dictDel (heapGet heap b).edge a }) a).edge b }) := by
      simp only [unlink, hw, hrev]
      rw [if_neg hw0]
    refine ⟨_, hstep, ?_, ?_⟩
    · have h1 : heapGet (heap.set b
          { heapGet heap b with edge := dictDel (heapGet heap b).edge a }) a
          = heapGet heap a := heapGet_set_ne hab.symm
      rw [heapGet_set_self (by rw [List.length_set]; exact ha), h1]
      exact dictGet_dictDel_self hka
    · rw [heapGet_set_ne hab, heapGet_set_self hb]
      exact dictGet_dictDel_self hkb

/-- Witness for `unlink_characterization` on a two-node heap with a
mutual edge of weight 5: unlink succeeds and removes both directions. -/
theorem unlink_characterization_witness :
    ∃ heap2,
      unlink [⟨0, [(1, (5 : ℤ))]⟩, ⟨1, [(0, 5)]⟩] 0 1 = .ok heap2 ∧
        dictGet (heapGet heap2 0).edge 1 = none ∧
        dictGet (heapGet heap2 1).edge 0 = none :=
  (unlink_characterization (by decide) (by decide) (by decide)
    (by decide) (by decide)).2.2.2 5 5 rfl (by decide) rfl

/-- C9 counterexample: on a heap where node 1 IS a current neighbor of
node 0 (mutually linked, stored weight 0), `unlink` still raises,
because `if not self.edge.get(node)` treats the weight `0.0` as falsy.
The claim that unlink raises only when the target is not a neighbor is
therefore false. -/
theorem unlink_weight_zero_counterexample :
    dictGet (heapGet [⟨0, [(1, (0 : ℤ))]⟩, ⟨1, [(0, 0)]⟩] 0).edge 1 = some 0 ∧
      dictGet (heapGet [⟨0, [(1, (0 : ℤ))]⟩, ⟨1, [(0, 0)]⟩] 1).edge 0 = some 0 ∧
      ∃ e, unlink [⟨0, [(1, (0 : ℤ))]⟩, ⟨1, [(0, 0)]⟩] 0 1 = .error e :=
  ⟨rfl, rfl, _, rfl⟩

end CorrelationGraph
